import Mathlib

/-!
Verification of the hyperpolyglot CLI reporting pipeline (src/bin/main.rs).

The file embeds the aggregation/reporting pipeline of the binary:
grouping per-file detections by language, the percentage summary,
the per-file breakdown, the per-strategy breakdown, and the path
normalizer `strip_relative_parts`.

Modelling conventions:
* A file path is the `String` held by the Rust `PathBuf`.  Rust `Path`
  operations (`starts_with`, `strip_prefix`, `Ord`, `Display`) work on
  parsed *components*; the component parser is embedded below
  (`pathComponents`) following the documented std behaviour: segments are
  separated by `/`, empty segments are skipped, a `.` segment is skipped
  except as the very first component of a relative path, `..` is kept.
* The colored output stream (`termcolor::StandardStream`) is embedded as a
  list of events (`OutEvent`): color changes plus `write!`/`writeln!`
  fragments.  `renderLines` assembles the textual lines a terminal would
  show, ignoring the (deterministic) color escapes.
* `std::collections::BinaryHeap` is external library code; it is embedded
  by its documented contract: `push` adds an element, `pop` removes a
  greatest element.  The binary pushes `Reverse((language, path))`, so
  popping removes a least `(language, path)` pair; draining the heap is
  `heapDrain` below, which repeatedly extracts a minimal element.
* `f64` percentage arithmetic is embedded over `ℚ`: the value printed with
  `{:.2}` is the exact rational `100 * len / total` rounded to two decimal
  digits (`percentRounded`, in hundredths).
-/

/-- One parsed component of a Rust `Path` (Unix rules; `Prefix` components
do not occur on Unix). Constructor order matches the derived `Ord` of
`std::path::Component`: `RootDir < CurDir < ParentDir < Normal`. -/
inductive Component : Type where
  | rootDir : Component
  | curDir : Component
  | parentDir : Component
  | normal (s : String) : Component
deriving DecidableEq, Repr

/-- Split a string into `/`-separated segments (byte-level, like
`str::split` on the path separator). `splitSegs "" = [""]`. -/
def splitSegsAux : List Char → List Char → List String
  | [], acc => [String.mk acc.reverse]
  | c :: cs, acc =>
    if c = '/' then String.mk acc.reverse :: splitSegsAux cs []
    else splitSegsAux cs (c :: acc)

def splitSegs (s : String) : List String :=
  splitSegsAux s.data []

/-- A non-leading path segment, as `std::path::Components` parses it:
empty segments and `.` segments disappear, `..` is `ParentDir`, anything
else is a `Normal` component. -/
def parseSeg (seg : String) : Option Component :=
  if seg = "" then none
  else if seg = "." then none
  else if seg = ".." then some Component.parentDir
  else some (Component.normal seg)

/-- Does the string start with the root separator (first byte `/`)? -/
def strHasRootStart (s : String) : Bool :=
  match s.data with
  | '/' :: _ => true
  | _ => false

/-- Rust keeps a leading `CurDir` component exactly when the path has no
root and starts with `.` followed by nothing or a separator
(`std::path::Components::include_cur_dir`). -/
def strHasCurDirStart (s : String) : Bool :=
  s = "." || List.isPrefixOf ['.', '/'] s.data

/-- The component list of a path string, as `Path::components` yields it. -/
def pathComponents (s : String) : List Component :=
  if strHasRootStart s then
    Component.rootDir :: (splitSegs s).filterMap parseSeg
  else if strHasCurDirStart s then
    Component.curDir :: (splitSegs s).filterMap parseSeg
  else
    (splitSegs s).filterMap parseSeg

/-- `Path::starts_with`: the components of `base` are a prefix of the
components of `s` (`std::path::iter_after`). -/
def path_starts_with (s base : String) : Bool :=
  List.isPrefixOf (pathComponents base) (pathComponents s)

/-- A segment that `Components` skips outside the leading position. -/
def isJunkSeg (seg : String) : Bool :=
  seg = "" || seg = "."

/-- Re-join segments with `/`. -/
def joinSegs : List String → String
  | [] => ""
  | [x] => x
  | x :: xs => x ++ "/" ++ joinSegs xs

/-- The raw remainder `Path::strip_prefix("./")` leaves, as shown by
`Display`: the leading run of `.`/empty segments is consumed, trailing
`.`/empty segments are trimmed (`Components::as_path` trims both edges),
and interior bytes are kept verbatim. -/
def stripDotSlashRaw (s : String) : String :=
  joinSegs (((splitSegs s).dropWhile isJunkSeg).reverse.dropWhile isJunkSeg).reverse

/-- `path.strip_prefix("./")`: succeeds exactly when the first component
is `CurDir` (the single component of `./`), returning the remainder. -/
def stripPrefixDotSlash (s : String) : Option String :=
  match pathComponents s with
  | Component.curDir :: _ => some (stripDotSlashRaw s)
  | _ => none

/-- `strip_relative_parts` from src/bin/main.rs: under the guard
`path.starts_with("./")` it unwraps `path.strip_prefix("./")` (the
`.getD s` stands for the `unwrap`, whose failure case is proved dead),
otherwise it returns the path unchanged. -/
def strip_relative_parts (s : String) : String :=
  if path_starts_with s "./" then (stripPrefixDotSlash s).getD s
  else s

example : strip_relative_parts "./a/b.rs" = "a/b.rs" := by decide
example : strip_relative_parts "a/b.rs" = "a/b.rs" := by decide
example : strip_relative_parts "../a.rs" = "../a.rs" := by decide
example : strip_relative_parts "." = "" := by decide
example : strip_relative_parts "././a" = "a" := by decide
example : strip_relative_parts "./a//b" = "a//b" := by decide
example : pathComponents "./" = [Component.curDir] := by decide

/-! ### Data model -/

/-- Modelled from the spec: the detection engine's strategy enumeration
(`hyperpolyglot::Detection`, external to the shown source) — a small
closed enumeration of how a file's language was determined, exposing its
variant name for the strategy breakdown. -/
inductive Detection : Type where
  | filename : Detection
  | shebang : Detection
  | extension : Detection
  | heuristics : Detection
  | classifier : Detection
  | manual : Detection
deriving DecidableEq, Repr

/-- `Detection::variant`: the display name of the strategy. -/
def Detection.variant : Detection → String
  | Detection.filename => "Filename"
  | Detection.shebang => "Shebang"
  | Detection.extension => "Extension"
  | Detection.heuristics => "Heuristics"
  | Detection.classifier => "Classifier"
  | Detection.manual => "Manual"

/-- Modelled from the spec: the language metadata type category
(`hyperpolyglot::LanguageType`, external to the shown source). -/
inductive LanguageType : Type where
  | data : LanguageType
  | markup : LanguageType
  | programming : LanguageType
  | prose : LanguageType
deriving DecidableEq, Repr

/-- One language's entry: name and the scan-ordered detections. -/
abbrev LangEntry := String × List (Detection × String)

/-- The filter predicate of `main`: keep a language iff its metadata type
is `Markup` or `Programming` (languages without metadata are dropped). -/
def keepLang (info : String → Option LanguageType) (g : LangEntry) : Bool :=
  match info g.1 with
  | some LanguageType.markup => true
  | some LanguageType.programming => true
  | _ => false

/-- The comparator of both `sort_by` calls: descending by the length of
the second (the entry's item list). -/
def lenGE {β γ : Type} (x y : γ × List β) : Prop :=
  y.2.length ≤ x.2.length

instance {β γ : Type} : DecidableRel (@lenGE β γ) :=
  fun x y => Nat.decLe y.2.length x.2.length

instance {β γ : Type} : IsTotal (γ × List β) lenGE :=
  ⟨fun x y => Nat.le_total y.2.length x.2.length⟩

instance {β γ : Type} : IsTrans (γ × List β) lenGE :=
  ⟨fun _ _ _ h1 h2 => Nat.le_trans h2 h1⟩

/-- Filtering and sorting of the breakdown in `main` (lines 24–33):
keep markup/programming languages, then a stable sort descending by file
count (Rust's `sort_by` is stable; embedded with the stable
`insertionSort`). -/
def languageFilterSort (info : String → Option LanguageType)
    (breakdown : List LangEntry) : List LangEntry :=
  List.insertionSort lenGE (breakdown.filter (keepLang info))

/-! ### The output stream -/

/-- One event on the colored output stream. -/
inductive OutEvent : Type where
  | write (s : String) : OutEvent
  | writeLn (s : String) : OutEvent
  | setColor (c : Nat) : OutEvent
deriving DecidableEq, Repr

/-- Color codes for the three process-wide styles. -/
def titleColor : Nat := 1

def defaultColor : Nat := 0

def languageColor : Nat := 2

/-- Assemble events into (closed lines, still-open line fragment). -/
def processA : List OutEvent → String → List String × String
  | [], cur => ([], cur)
  | OutEvent.write s :: es, cur => processA es (cur ++ s)
  | OutEvent.writeLn s :: es, cur =>
    let r := processA es ""
    ((cur ++ s) :: r.1, r.2)
  | OutEvent.setColor _ :: es, cur => processA es cur

/-- The textual lines shown for an event stream (colors are invisible). -/
def renderLines (es : List OutEvent) : List String :=
  let r := processA es ""
  if r.2 = "" then r.1 else r.1 ++ [r.2]

/-! ### print_language_split -/

/-- The fold computing `total` in `print_language_split`. -/
def totalCount (groups : List LangEntry) : Nat :=
  groups.foldl (fun acc g => acc + g.2.length) 0

/-- Hundredths of the printed percentage: `(len * 100) as f64 / total`
rendered by `{:.2}`, embedded as the exact rational `10000 * len / total`
rounded to the nearest integer (`⌊(20000*len + total) / (2*total)⌋`).
For `total = 0` the Rust quotient is `NaN`; that case is unreachable from
engine output (every listed language has at least one file) and this
embedding returns `0` there. -/
def percentRounded (len total : Nat) : Nat :=
  (20000 * len + total) / (2 * total)

/-- Zero-padded two-digit fraction part. -/
def natPad2 (n : Nat) : String :=
  if n < 10 then "0" ++ toString n else toString n

/-- The `{:.2}` rendering of the percentage. -/
def formatPercent (len total : Nat) : String :=
  toString (percentRounded len total / 100) ++ "." ++ natPad2 (percentRounded len total % 100)

/-- `print_language_split` (lines 91–99): one `println!` per group,
`"<percentage>% <language>"`. -/
def print_language_split (groups : List LangEntry) : List OutEvent :=
  groups.map fun g =>
    OutEvent.writeLn (formatPercent g.2.length (totalCount groups) ++ "% " ++ g.1)

/-! ### print_file_breakdown -/

/-- The loop body of `print_file_breakdown` for one language. -/
def fileGroupEvents (condensed : Bool) (matchF : String → Bool) (g : LangEntry) :
    List OutEvent :=
  if matchF g.1 then
    [OutEvent.setColor titleColor, OutEvent.write g.1, OutEvent.setColor defaultColor,
      OutEvent.writeLn (" (" ++ toString g.2.length ++ ")")] ++
    (if condensed then []
     else g.2.map (fun d => OutEvent.writeLn (strip_relative_parts d.2)) ++
       [OutEvent.writeLn ""])
  else []

/-- `print_file_breakdown` (lines 101–123). -/
def print_file_breakdown (groups : List LangEntry) (condensed : Bool)
    (matchF : String → Bool) : List OutEvent :=
  groups.flatMap (fileGroupEvents condensed matchF)

/-! ### print_strategy_breakdown -/

/-- The `Ord` of `(&&str, &PathBuf)`: language by byte order, then the
path by component order (`Component` discriminant, then byte order).
Byte-wise UTF-8 comparison equals code-point-wise comparison. -/
def charCmp (c d : Char) : Ordering :=
  if c < d then Ordering.lt
  else if d < c then Ordering.gt
  else Ordering.eq

/-- Lexicographic comparison of sequences from an element comparison. -/
def lexCmp (cmp : β → β → Ordering) : List β → List β → Ordering
  | [], [] => Ordering.eq
  | [], _ :: _ => Ordering.lt
  | _ :: _, [] => Ordering.gt
  | a :: as, b :: bs =>
    match cmp a b with
    | Ordering.eq => lexCmp cmp as bs
    | o => o

/-- `str` comparison: byte-wise lexicographic. -/
def strCmp (a b : String) : Ordering :=
  lexCmp charCmp a.data b.data

/-- Derived `Ord` of `std::path::Component` (on Unix):
`RootDir < CurDir < ParentDir < Normal`, `Normal` by content. -/
def compCmp : Component → Component → Ordering
  | Component.rootDir, Component.rootDir => Ordering.eq
  | Component.rootDir, _ => Ordering.lt
  | _, Component.rootDir => Ordering.gt
  | Component.curDir, Component.curDir => Ordering.eq
  | Component.curDir, _ => Ordering.lt
  | _, Component.curDir => Ordering.gt
  | Component.parentDir, Component.parentDir => Ordering.eq
  | Component.parentDir, _ => Ordering.lt
  | _, Component.parentDir => Ordering.gt
  | Component.normal s, Component.normal t => strCmp s t

/-- Lexicographic comparison of `(language, path)` pairs; a path compares
by its component sequence (`Path` ordering via `compare_components`). -/
def pairCmp (x y : String × String) : Ordering :=
  match strCmp x.1 y.1 with
  | Ordering.eq => lexCmp compCmp (pathComponents x.2) (pathComponents y.2)
  | o => o

/-- `x ≤ y` for heap extraction (the code pushes `Reverse` pairs, so the
heap's greatest element is the least pair). -/
def pairLe (x y : String × String) : Bool :=
  match pairCmp x y with
  | Ordering.gt => false
  | _ => true

/-- Extract a least element (leftmost among comparison-equal ones);
embeds `BinaryHeap::pop` of `Reverse` pairs by its contract. -/
def extractMin (le : α → α → Bool) : List α → Option (α × List α)
  | [] => none
  | x :: xs =>
    match extractMin le xs with
    | none => some (x, [])
    | some (m, rest) => if le x m then some (x, xs) else some (m, x :: rest)

def heapDrainAux (le : α → α → Bool) : Nat → List α → List α
  | 0, _ => []
  | fuel + 1, l =>
    match extractMin le l with
    | none => []
    | some (m, rest) => m :: heapDrainAux le fuel rest

/-- The `while let Some(Reverse(..)) = breakdowns.pop()` loop: repeatedly
remove a least pair until the heap is empty. -/
def heapDrain (le : α → α → Bool) (l : List α) : List α :=
  heapDrainAux le l.length l

/-- `strategy_breakdown.entry(k).or_insert(BinaryHeap::new()); files.push(pr)`:
the bucket map is an association list, a bucket holds its pushed pairs.
The external `HashMap` is freshly seeded per call and iterates in
per-run randomized order; first-insertion order is this embedding's
deterministic stand-in for it.  No theorem below relies on that stand-in
order: the partition and within-bucket statements are insensitive to how
the buckets are arranged, and in the real program equal-size buckets may
appear in either order after the size-only stable sort. -/
def pushBucket (m : List (String × List (String × String))) (k : String)
    (pr : String × String) : List (String × List (String × String)) :=
  match m with
  | [] => [(k, [pr])]
  | b :: rest => if b.1 = k then (b.1, pr :: b.2) :: rest else b :: pushBucket rest k pr

/-- The double loop of `print_strategy_breakdown` (lines 129–137) building
the buckets keyed by `detection.variant()`. -/
def buildBuckets (groups : List LangEntry) : List (String × List (String × String)) :=
  groups.foldl (fun m g => g.2.foldl (fun m2 d => pushBucket m2 d.1.variant (g.1, d.2)) m) []

/-- Bucket collection sorted descending by bucket size (line 141). -/
def strategyBuckets (groups : List LangEntry) : List (String × List (String × String)) :=
  List.insertionSort lenGE (buildBuckets groups)

/-- One emitted pair line: `"<normalized path> (<language>)"`. -/
def strategyLine (pr : String × String) : String :=
  strip_relative_parts pr.2 ++ " (" ++ pr.1 ++ ")"

/-- The loop body of `print_strategy_breakdown` for one strategy. -/
def strategyGroupEvents (condensed : Bool) (matchF : String → Bool)
    (b : String × List (String × String)) : List OutEvent :=
  if matchF b.1 then
    [OutEvent.setColor titleColor, OutEvent.write b.1, OutEvent.setColor defaultColor,
      OutEvent.writeLn (" (" ++ toString b.2.length ++ ")")] ++
    (if condensed then []
     else (heapDrain pairLe b.2).flatMap (fun pr =>
         [OutEvent.setColor defaultColor, OutEvent.write (strip_relative_parts pr.2),
           OutEvent.setColor languageColor, OutEvent.writeLn (" (" ++ pr.1 ++ ")")]) ++
       [OutEvent.writeLn ""])
  else []

/-- `print_strategy_breakdown` (lines 125–165). -/
def print_strategy_breakdown (groups : List LangEntry) (condensed : Bool)
    (matchF : String → Bool) : List OutEvent :=
  (strategyBuckets groups).flatMap (strategyGroupEvents condensed matchF)

/-! ### main -/

/-- The parsed command line. -/
structure CLIArgs : Type where
  file_breakdown : Bool
  strategy_breakdown : Bool
  condensed : Bool
  filter : Option String
deriving Repr

inductive ExitKind : Type where
  | success : ExitKind
  | panicked : ExitKind
deriving DecidableEq, Repr

/-- `main` (lines 19–57), embedded as `mainFn`.  `info` is the external metadata lookup,
`regexCompile` the external regex compiler (`none` = compile error; a
compiled regex is its match predicate; an unset filter is the empty regex,
which matches everything), `breakdown` the engine's output in its
arbitrary `HashMap` iteration order.  The filter is compiled only *after*
the scan and after the percentage summary is printed; a compile failure
is the `expect` panic (non-zero exit).  Output-sink write errors (the
`exit(1)` paths) are not modelled: the sink here is infallible. -/
def mainFn (info : String → Option LanguageType)
    (regexCompile : String → Option (String → Bool))
    (breakdown : List LangEntry) (args : CLIArgs) : List OutEvent × ExitKind :=
  let language_count := languageFilterSort info breakdown
  let ev0 := print_language_split language_count
  match (match args.filter with
         | none => some (fun _ => true)
         | some f => regexCompile f) with
  | none => (ev0, ExitKind.panicked)
  | some matchF =>
    let ev1 := ev0 ++
      (if args.file_breakdown then
        OutEvent.writeLn "" :: print_file_breakdown language_count args.condensed matchF
       else [])
    let ev2 := ev1 ++
      (if args.strategy_breakdown then
        OutEvent.writeLn "" :: print_strategy_breakdown language_count args.condensed matchF
       else [])
    (ev2, ExitKind.success)

/-! Sanity checks against the end-to-end example of the spec. -/

def exInfo : String → Option LanguageType := fun s =>
  if s = "Rust" then some LanguageType.programming
  else if s = "Markdown" then some LanguageType.markup
  else none

def exBreakdown : List LangEntry :=
  [("Rust", [(Detection.extension, "./a.rs"), (Detection.extension, "./b.rs")]),
   ("Markdown", [(Detection.extension, "README.md")])]

example :
    renderLines (mainFn exInfo (fun _ => none) exBreakdown
      ⟨false, false, false, none⟩).1 = ["66.67% Rust", "33.33% Markdown"] := by decide

example :
    renderLines (mainFn exInfo (fun _ => none) exBreakdown
      ⟨true, false, false, none⟩).1 =
      ["66.67% Rust", "33.33% Markdown", "", "Rust (2)", "a.rs", "b.rs", "",
        "Markdown (1)", "README.md", ""] := by decide

example :
    renderLines (mainFn exInfo (fun _ => none) exBreakdown
      ⟨true, false, true, none⟩).1 =
      ["66.67% Rust", "33.33% Markdown", "", "Rust (2)", "Markdown (1)"] := by decide

example :
    renderLines (mainFn exInfo (fun _ => none) exBreakdown
      ⟨false, true, false, none⟩).1 =
      ["66.67% Rust", "33.33% Markdown", "", "Extension (3)",
        "README.md (Markdown)", "a.rs (Rust)", "b.rs (Rust)", ""] := by decide

/-! ### Path normalizer: claims C5 and C10 -/

/-- `parseSeg` never yields the current-directory component. -/
theorem parseSeg_ne_curDir (seg : String) : parseSeg seg ≠ some Component.curDir := by
  unfold parseSeg
  split
  · simp
  · split
    · simp
    · split <;> simp

/-- Segment parsing never yields the current-directory component. -/
theorem curDir_not_mem_filterMap (segs : List String) :
    Component.curDir ∉ segs.filterMap parseSeg := by
  intro hmem
  obtain ⟨seg, _, hp⟩ := List.mem_filterMap.mp hmem
  exact parseSeg_ne_curDir seg hp

/-- The components of the literal `./` path. -/
theorem pathComponents_dotslash : pathComponents "./" = [Component.curDir] := by decide

/-- `path.starts_with("./")` holds exactly when the first parsed
component is `CurDir`. -/
theorem path_starts_with_dotslash_iff (s : String) :
    path_starts_with s "./" = true ↔
      ∃ rest, pathComponents s = Component.curDir :: rest := by
  unfold path_starts_with
  rw [pathComponents_dotslash]
  rw [List.isPrefixOf_iff_prefix]
  constructor
  · rintro ⟨t, ht⟩
    exact ⟨t, ht.symm⟩
  · rintro ⟨rest, hr⟩
    exact ⟨rest, hr.symm⟩

/-- C10: `strip_relative_parts` is total and the `unwrap` on
`strip_prefix("./")` can never fail: whenever the guard
`path.starts_with("./")` holds, `path.strip_prefix("./")` succeeds. -/
theorem strip_relative_parts_unwrap_safe (s : String)
    (h : path_starts_with s "./" = true) :
    (stripPrefixDotSlash s).isSome = true := by
  obtain ⟨rest, hr⟩ := (path_starts_with_dotslash_iff s).mp h
  unfold stripPrefixDotSlash
  rw [hr]
  rfl

/-- C10 witness: the guard holds for `./a` and the strip succeeds. -/
theorem strip_relative_parts_unwrap_safe_w :
    path_starts_with "./a" "./" = true ∧ (stripPrefixDotSlash "./a").isSome = true :=
  ⟨by decide, strip_relative_parts_unwrap_safe "./a" (by decide)⟩

/-- C5 counterexample: the claim's normalizer is a byte-level strip of one
leading `./`.  The code strips by components: `././a` loses *both*
leading markers (the claim demands `./a`), and `.` — which does not begin
with the two-character marker `./` — is nevertheless changed to the empty
path. -/
theorem pathNormalizer_counterexample :
    strip_relative_parts "././a" = "a" ∧ ("a" : String) ≠ "./a" ∧
      strip_relative_parts "." = "" ∧
      List.isPrefixOf "./".data ".".data = false ∧ ("" : String) ≠ "." := by
  exact ⟨by decide, by decide, by decide, by decide, by decide⟩

/-- C5 amended: `strip_relative_parts` is pure and total; a path whose
first component is not the current-directory marker (neither `.` itself
nor a `./` byte prefix) is returned unchanged, and stripping works on
components: the three spec examples hold, but `.` becomes the empty path
and every leading `./` repetition is removed, not just one. -/
theorem pathNormalizer_amended :
    (∀ s : String, strHasCurDirStart s = false → strip_relative_parts s = s) ∧
      strip_relative_parts "./a/b.rs" = "a/b.rs" ∧
      strip_relative_parts "a/b.rs" = "a/b.rs" ∧
      strip_relative_parts "../a.rs" = "../a.rs" ∧
      strip_relative_parts "." = "" ∧
      strip_relative_parts "././a" = "a" := by
  refine ⟨?_, by decide, by decide, by decide, by decide, by decide⟩
  intro s hguard
  unfold strip_relative_parts
  have hfalse : path_starts_with s "./" = false := by
    cases hsw : path_starts_with s "./" with
    | false => rfl
    | true =>
      obtain ⟨rest, hr⟩ := (path_starts_with_dotslash_iff s).mp hsw
      unfold pathComponents at hr
      split at hr
      · exact absurd (List.cons.injEq .. ▸ hr).1 (by simp)
      next h2 =>
        split at hr
        next h3 => exact absurd h3 (by rw [hguard]; simp)
        next =>
          exact absurd (hr ▸ List.mem_cons_self Component.curDir rest)
            (curDir_not_mem_filterMap _)
  rw [hfalse]
  simp

/-! ### Line assembly -/

theorem string_empty_append (s : String) : "" ++ s = s := by
  cases s
  rfl

theorem processA_append (es1 es2 : List OutEvent) (cur : String) :
    processA (es1 ++ es2) cur =
      ((processA es1 cur).1 ++ (processA es2 (processA es1 cur).2).1,
        (processA es2 (processA es1 cur).2).2) := by
  induction es1 generalizing cur with
  | nil => simp [processA]
  | cons e es ih => cases e <;> simp [processA, ih]

/-- Rendering a concatenation of per-item event blocks, each of which
ends with a completed line, concatenates the per-item lines. -/
theorem processA_flatMap {σ : Type} (f : σ → List OutEvent) (gs : List σ)
    (hclosed : ∀ g ∈ gs, (processA (f g) "").2 = "") :
    processA (gs.flatMap f) "" =
      (gs.flatMap (fun g => (processA (f g) "").1), "") := by
  induction gs with
  | nil => simp [processA]
  | cons g gs ih =>
    rw [List.flatMap_cons, processA_append, hclosed g (List.mem_cons_self g gs),
      ih (fun x hx => hclosed x (List.mem_cons_of_mem g hx))]
    simp

theorem processA_writeLn_map {σ : Type} (f : σ → String) (l : List σ) :
    processA (l.map fun x => OutEvent.writeLn (f x)) "" = (l.map f, "") := by
  induction l with
  | nil => rfl
  | cons x xs ih => simp [processA, ih, string_empty_append]

theorem renderLines_closed (es : List OutEvent) (h : (processA es "").2 = "") :
    renderLines es = (processA es "").1 := by
  simp only [renderLines]
  rw [h]
  simp

/-! ### C9: the file breakdown printer -/

/-- The lines the loop body of `print_file_breakdown` emits for one
language, with an empty open fragment before and after. -/
theorem processA_fileGroup (condensed : Bool) (matchF : String → Bool) (g : LangEntry) :
    processA (fileGroupEvents condensed matchF g) "" =
      ((if matchF g.1 then
          (g.1 ++ " (" ++ toString g.2.length ++ ")") ::
            (if condensed then [] else g.2.map (fun d => strip_relative_parts d.2) ++ [""])
        else []), "") := by
  unfold fileGroupEvents
  split
  · cases condensed with
    | true => simp [processA, string_empty_append, String.append_assoc]
    | false =>
      simp only [Bool.false_eq_true, if_false, List.cons_append, List.nil_append]
      simp only [processA]
      rw [processA_append, processA_writeLn_map]
      simp [processA, string_empty_append, String.append_assoc]
  · simp [processA]

/-- C9: for every grouped sequence, condensed flag and filter, the file
breakdown prints, per matching language, the header `"<language> (<count>)"`,
then (unless condensed) each file's normalized path in the existing order
followed by one blank line; non-matching languages emit nothing. -/
theorem print_file_breakdown_lines (groups : List LangEntry) (condensed : Bool)
    (matchF : String → Bool) :
    renderLines (print_file_breakdown groups condensed matchF) =
      groups.flatMap (fun g =>
        if matchF g.1 then
          (g.1 ++ " (" ++ toString g.2.length ++ ")") ::
            (if condensed then [] else g.2.map (fun d => strip_relative_parts d.2) ++ [""])
        else []) := by
  unfold print_file_breakdown
  have hclosed : ∀ g ∈ groups, (processA (fileGroupEvents condensed matchF g) "").2 = "" := by
    intro g _
    rw [processA_fileGroup]
  rw [renderLines_closed _ (by rw [processA_flatMap _ _ hclosed]),
    processA_flatMap _ _ hclosed]
  simp only [processA_fileGroup]

/-! ### C7: zero total emits nothing -/

theorem totalCount_aux (groups : List LangEntry) (n : Nat) :
    groups.foldl (fun acc g => acc + g.2.length) n =
      n + (groups.map fun g => g.2.length).sum := by
  induction groups generalizing n with
  | nil => simp
  | cons g gs ih =>
    simp only [List.foldl_cons, List.map_cons, List.sum_cons, ih]
    omega

theorem totalCount_eq_sum (groups : List LangEntry) :
    totalCount groups = (groups.map fun g => g.2.length).sum := by
  unfold totalCount
  rw [totalCount_aux]
  omega

/-- C7: when the total file count over the grouped sequence is zero (for
engine-produced input every group is non-empty, so the grouping itself is
empty), the percentage report performs no division and emits nothing. -/
theorem print_language_split_zero_total (groups : List LangEntry)
    (hne : ∀ g ∈ groups, g.2 ≠ []) (h0 : totalCount groups = 0) :
    print_language_split groups = [] ∧ renderLines (print_language_split groups) = [] := by
  have hnil : groups = [] := by
    cases groups with
    | nil => rfl
    | cons g gs =>
      exfalso
      rw [totalCount_eq_sum] at h0
      simp only [List.map_cons, List.sum_cons] at h0
      have hlen : g.2.length = 0 := by omega
      exact hne g (List.mem_cons_self g gs) (List.eq_nil_of_length_eq_zero hlen)
  subst hnil
  exact ⟨rfl, rfl⟩

/-- C7 witness: the empty grouping has zero total and renders nothing. -/
theorem print_language_split_zero_total_w :
    print_language_split [] = [] ∧ renderLines (print_language_split []) = [] :=
  print_language_split_zero_total [] (by simp) rfl

/-! ### Order lemmas for the heap comparison -/

theorem charCmp_eq_iff {c d : Char} : charCmp c d = Ordering.eq ↔ c = d := by
  constructor
  · intro h
    unfold charCmp at h
    split at h
    next => exact absurd h (by simp)
    next h1 =>
      split at h
      next => exact absurd h (by simp)
      next h2 => exact le_antisymm (not_lt.mp h2) (not_lt.mp h1)
  · intro h
    subst h
    simp [charCmp, lt_irrefl]

theorem charCmp_lt_iff {c d : Char} : charCmp c d = Ordering.lt ↔ c < d := by
  unfold charCmp
  split
  next h => simp [h]
  next h =>
    split
    next => simp [h]
    next => simp [h]

theorem charCmp_swap (c d : Char) : charCmp d c = (charCmp c d).swap := by
  unfold charCmp
  rcases lt_trichotomy c d with h | h | h
  · simp [h, asymm h, Ordering.swap]
  · subst h
    simp [lt_irrefl, Ordering.swap]
  · simp [h, asymm h, Ordering.swap]

theorem charCmp_lt_trans {c d e : Char} (h1 : charCmp c d = Ordering.lt)
    (h2 : charCmp d e = Ordering.lt) : charCmp c e = Ordering.lt :=
  charCmp_lt_iff.mpr (lt_trans (charCmp_lt_iff.mp h1) (charCmp_lt_iff.mp h2))

theorem lexCmp_eq_iff {β : Type} (cmp : β → β → Ordering)
    (heq : ∀ a b, cmp a b = Ordering.eq ↔ a = b) :
    ∀ (l1 l2 : List β), lexCmp cmp l1 l2 = Ordering.eq ↔ l1 = l2 := by
  intro l1
  induction l1 with
  | nil =>
    intro l2
    cases l2 <;> simp [lexCmp]
  | cons a as ih =>
    intro l2
    cases l2 with
    | nil => simp [lexCmp]
    | cons b bs =>
      simp only [lexCmp]
      cases hc : cmp a b with
      | eq =>
        have hab : a = b := (heq a b).mp hc
        subst hab
        simp [ih bs]
      | lt =>
        apply iff_of_false (by simp)
        intro hcons
        injection hcons with hhd _
        rw [hhd, (heq b b).mpr rfl] at hc
        exact absurd hc (by simp)
      | gt =>
        apply iff_of_false (by simp)
        intro hcons
        injection hcons with hhd _
        rw [hhd, (heq b b).mpr rfl] at hc
        exact absurd hc (by simp)

theorem lexCmp_swap {β : Type} (cmp : β → β → Ordering)
    (hswap : ∀ a b, cmp b a = (cmp a b).swap) :
    ∀ (l1 l2 : List β), lexCmp cmp l2 l1 = (lexCmp cmp l1 l2).swap := by
  intro l1
  induction l1 with
  | nil =>
    intro l2
    cases l2 <;> rfl
  | cons a as ih =>
    intro l2
    cases l2 with
    | nil => rfl
    | cons b bs =>
      simp only [lexCmp]
      rw [hswap a b]
      cases hc : cmp a b with
      | eq => simpa using ih bs
      | lt => rfl
      | gt => rfl

theorem lexCmp_lt_trans {β : Type} (cmp : β → β → Ordering)
    (heq : ∀ a b, cmp a b = Ordering.eq ↔ a = b)
    (htr : ∀ a b c, cmp a b = Ordering.lt → cmp b c = Ordering.lt →
      cmp a c = Ordering.lt) :
    ∀ l1 l2 l3, lexCmp cmp l1 l2 = Ordering.lt → lexCmp cmp l2 l3 = Ordering.lt →
      lexCmp cmp l1 l3 = Ordering.lt := by
  intro l1
  induction l1 with
  | nil =>
    intro l2 l3 h1 h2
    cases l3 with
    | nil =>
      cases l2 with
      | nil => simp [lexCmp] at h2
      | cons b bs => simp [lexCmp] at h2
    | cons c cs => simp [lexCmp]
  | cons a as ih =>
    intro l2 l3 h1 h2
    cases l2 with
    | nil => simp [lexCmp] at h1
    | cons b bs =>
      cases l3 with
      | nil => simp [lexCmp] at h2
      | cons c cs =>
        simp only [lexCmp] at h1 h2 ⊢
        cases hab : cmp a b with
        | gt => rw [hab] at h1; exact absurd h1 (by simp)
        | lt =>
          rw [hab] at h1
          cases hbc : cmp b c with
          | gt => rw [hbc] at h2; exact absurd h2 (by simp)
          | lt => rw [htr a b c hab hbc]
          | eq =>
            have hb : b = c := (heq b c).mp hbc
            subst hb
            rw [hab]
        | eq =>
          have hb : a = b := (heq a b).mp hab
          subst hb
          rw [hab] at h1
          cases hbc : cmp a c with
          | gt => rw [hbc] at h2; exact absurd h2 (by simp)
          | lt => rfl
          | eq =>
            rw [hbc] at h2
            exact ih bs cs h1 h2

theorem lexCmp_le_trans {β : Type} (cmp : β → β → Ordering)
    (heq : ∀ a b, cmp a b = Ordering.eq ↔ a = b)
    (htr : ∀ a b c, cmp a b = Ordering.lt → cmp b c = Ordering.lt →
      cmp a c = Ordering.lt)
    (l1 l2 l3 : List β) (h1 : lexCmp cmp l1 l2 ≠ Ordering.gt)
    (h2 : lexCmp cmp l2 l3 ≠ Ordering.gt) : lexCmp cmp l1 l3 ≠ Ordering.gt := by
  cases hc1 : lexCmp cmp l1 l2 with
  | gt => exact absurd hc1 h1
  | eq =>
    rw [← (lexCmp_eq_iff cmp heq l1 l2).mp hc1] at h2
    exact h2
  | lt =>
    cases hc2 : lexCmp cmp l2 l3 with
    | gt => exact absurd hc2 h2
    | eq =>
      rw [(lexCmp_eq_iff cmp heq l2 l3).mp hc2] at hc1
      rw [hc1]
      simp
    | lt =>
      rw [lexCmp_lt_trans cmp heq htr l1 l2 l3 hc1 hc2]
      simp

theorem strCmp_eq_iff {a b : String} : strCmp a b = Ordering.eq ↔ a = b := by
  unfold strCmp
  rw [lexCmp_eq_iff charCmp (fun c d => charCmp_eq_iff)]
  constructor
  · intro h
    cases a
    cases b
    exact congrArg String.mk (by simpa using h)
  · intro h
    rw [h]

theorem strCmp_swap (a b : String) : strCmp b a = (strCmp a b).swap :=
  lexCmp_swap charCmp charCmp_swap a.data b.data

theorem strCmp_lt_trans {a b c : String} (h1 : strCmp a b = Ordering.lt)
    (h2 : strCmp b c = Ordering.lt) : strCmp a c = Ordering.lt :=
  lexCmp_lt_trans charCmp (fun _ _ => charCmp_eq_iff)
    (fun _ _ _ hu hv => charCmp_lt_trans hu hv) a.data b.data c.data h1 h2

theorem compCmp_eq_iff {x y : Component} : compCmp x y = Ordering.eq ↔ x = y := by
  cases x <;> cases y <;> simp [compCmp, strCmp_eq_iff]

theorem compCmp_swap (x y : Component) : compCmp y x = (compCmp x y).swap := by
  cases x <;> cases y <;> first | rfl | exact strCmp_swap _ _

theorem compCmp_lt_trans {x y z : Component} (h1 : compCmp x y = Ordering.lt)
    (h2 : compCmp y z = Ordering.lt) : compCmp x z = Ordering.lt := by
  cases x <;> cases y <;> cases z <;>
    first
      | rfl
      | exact strCmp_lt_trans h1 h2
      | exact Ordering.noConfusion h1
      | exact Ordering.noConfusion h2

theorem pairCmp_swap (x y : String × String) : pairCmp y x = (pairCmp x y).swap := by
  unfold pairCmp
  rw [strCmp_swap x.1 y.1]
  cases hc : strCmp x.1 y.1 with
  | eq => simpa using lexCmp_swap compCmp compCmp_swap (pathComponents x.2) (pathComponents y.2)
  | lt => rfl
  | gt => rfl

theorem pairLe_eq_true_iff {x y : String × String} :
    pairLe x y = true ↔ pairCmp x y ≠ Ordering.gt := by
  unfold pairLe
  cases pairCmp x y <;> simp

theorem pairCmp_le_trans (x y z : String × String) (h1 : pairCmp x y ≠ Ordering.gt)
    (h2 : pairCmp y z ≠ Ordering.gt) : pairCmp x z ≠ Ordering.gt := by
  unfold pairCmp at h1 h2 ⊢
  cases hab : strCmp x.1 y.1 with
  | gt => rw [hab] at h1; exact absurd rfl h1
  | lt =>
    rw [hab] at h1
    cases hbc : strCmp y.1 z.1 with
    | gt => rw [hbc] at h2; exact absurd rfl h2
    | lt =>
      have hac : strCmp x.1 z.1 = Ordering.lt := strCmp_lt_trans hab hbc
      rw [hac]
      simp
    | eq =>
      have hyz : y.1 = z.1 := strCmp_eq_iff.mp hbc
      have hac : strCmp x.1 z.1 = Ordering.lt := by rw [← hyz]; exact hab
      rw [hac]
      simp
  | eq =>
    have hxy : x.1 = y.1 := strCmp_eq_iff.mp hab
    rw [hab] at h1
    cases hbc : strCmp y.1 z.1 with
    | gt => rw [hbc] at h2; exact absurd rfl h2
    | lt =>
      have hac : strCmp x.1 z.1 = Ordering.lt := by rw [hxy]; exact hbc
      rw [hac]
      simp
    | eq =>
      have hyz : y.1 = z.1 := strCmp_eq_iff.mp hbc
      have hac : strCmp x.1 z.1 = Ordering.eq := by
        rw [hxy, hyz]
        exact strCmp_eq_iff.mpr rfl
      rw [hac]
      rw [hbc] at h2
      exact lexCmp_le_trans compCmp (fun a b => compCmp_eq_iff)
        (fun _ _ _ hu hv => compCmp_lt_trans hu hv) _ _ _ h1 h2

theorem pairLe_total (x y : String × String) : pairLe x y = true ∨ pairLe y x = true := by
  unfold pairLe
  cases hc : pairCmp x y with
  | lt => left; rfl
  | eq => left; rfl
  | gt =>
    right
    rw [pairCmp_swap x y, hc]
    rfl

theorem pairLe_trans (x y z : String × String) (h1 : pairLe x y = true)
    (h2 : pairLe y z = true) : pairLe x z = true :=
  pairLe_eq_true_iff.mpr
    (pairCmp_le_trans x y z (pairLe_eq_true_iff.mp h1) (pairLe_eq_true_iff.mp h2))

/-! ### Heap drain correctness -/

theorem extractMin_eq_none {α : Type} (le : α → α → Bool) (l : List α)
    (h : extractMin le l = none) : l = [] := by
  cases l with
  | nil => rfl
  | cons x xs =>
    simp only [extractMin] at h
    cases hm : extractMin le xs with
    | none => rw [hm] at h; exact absurd h (by simp)
    | some q =>
      rw [hm] at h
      obtain ⟨m, rest⟩ := q
      dsimp at h
      split at h <;> exact absurd h (by simp)

theorem extractMin_perm {α : Type} (le : α → α → Bool) :
    ∀ (l : List α) (p : α × List α), extractMin le l = some p →
      l.Perm (p.1 :: p.2) := by
  intro l
  induction l with
  | nil => intro p h; exact absurd h (by simp [extractMin])
  | cons x xs ih =>
    intro p h
    simp only [extractMin] at h
    cases hm : extractMin le xs with
    | none =>
      rw [hm] at h
      have hxs : xs = [] := extractMin_eq_none le xs hm
      subst hxs
      cases h
      exact List.Perm.refl _
    | some q =>
      rw [hm] at h
      obtain ⟨m, rest⟩ := q
      dsimp at h
      split at h
      · cases h
        exact List.Perm.refl _
      · cases h
        exact ((ih (m, rest) hm).cons x).trans (List.Perm.swap m x rest)

theorem extractMin_length {α : Type} (le : α → α → Bool) (l : List α)
    (p : α × List α) (h : extractMin le l = some p) :
    l.length = p.2.length + 1 := by
  have := (extractMin_perm le l p h).length_eq
  simpa using this

theorem extractMin_min {α : Type} (le : α → α → Bool)
    (htot : ∀ a b, le a b = true ∨ le b a = true)
    (htr : ∀ a b c, le a b = true → le b c = true → le a c = true) :
    ∀ (l : List α) (p : α × List α), extractMin le l = some p →
      ∀ y ∈ l, le p.1 y = true := by
  intro l
  induction l with
  | nil => intro p h; exact absurd h (by simp [extractMin])
  | cons x xs ih =>
    intro p h y hy
    simp only [extractMin] at h
    cases hm : extractMin le xs with
    | none =>
      rw [hm] at h
      have hxs : xs = [] := extractMin_eq_none le xs hm
      subst hxs
      cases h
      have hyx : y = x := by simpa using hy
      subst hyx
      rcases htot y y with h1 | h1 <;> exact h1
    | some q =>
      rw [hm] at h
      obtain ⟨m, rest⟩ := q
      dsimp at h
      split at h
      next hle =>
        cases h
        rcases List.mem_cons.mp hy with rfl | hyxs
        · rcases htot y y with h1 | h1 <;> exact h1
        · exact htr x m y hle (ih (m, rest) hm y hyxs)
      next hle =>
        cases h
        rcases List.mem_cons.mp hy with rfl | hyxs
        · rcases htot m y with h1 | h1
          · exact h1
          · exact absurd h1 hle
        · exact ih (m, rest) hm y hyxs

theorem heapDrainAux_perm {α : Type} (le : α → α → Bool) :
    ∀ (fuel : Nat) (l : List α), l.length ≤ fuel →
      (heapDrainAux le fuel l).Perm l := by
  intro fuel
  induction fuel with
  | zero =>
    intro l h
    have : l = [] := List.eq_nil_of_length_eq_zero (Nat.le_zero.mp h)
    subst this
    simp [heapDrainAux]
  | succ n ih =>
    intro l hlen
    simp only [heapDrainAux]
    cases hm : extractMin le l with
    | none =>
      rw [extractMin_eq_none le l hm]
    | some p =>
      have hl := extractMin_length le l p hm
      have hp := extractMin_perm le l p hm
      have hrest := ih p.2 (by omega)
      exact (hrest.cons p.1).trans hp.symm

theorem heapDrain_perm {α : Type} (le : α → α → Bool) (l : List α) :
    (heapDrain le l).Perm l :=
  heapDrainAux_perm le l.length l (Nat.le_refl _)

theorem heapDrainAux_sorted {α : Type} (le : α → α → Bool)
    (htot : ∀ a b, le a b = true ∨ le b a = true)
    (htr : ∀ a b c, le a b = true → le b c = true → le a c = true) :
    ∀ (fuel : Nat) (l : List α), l.length ≤ fuel →
      List.Pairwise (fun a b => le a b = true) (heapDrainAux le fuel l) := by
  intro fuel
  induction fuel with
  | zero =>
    intro l _
    simp [heapDrainAux]
  | succ n ih =>
    intro l hlen
    simp only [heapDrainAux]
    cases hm : extractMin le l with
    | none => simp
    | some p =>
      have hl := extractMin_length le l p hm
      refine List.Pairwise.cons ?_ (ih p.2 (by omega))
      intro b hb
      have hbrest : b ∈ p.2 := (heapDrainAux_perm le n p.2 (by omega)).mem_iff.mp hb
      have hbl : b ∈ l :=
        (extractMin_perm le l p hm).symm.subset (List.mem_cons_of_mem p.1 hbrest)
      exact extractMin_min le htot htr l p hm b hbl

theorem heapDrain_sorted {α : Type} (le : α → α → Bool)
    (htot : ∀ a b, le a b = true ∨ le b a = true)
    (htr : ∀ a b c, le a b = true → le b c = true → le a c = true)
    (l : List α) :
    List.Pairwise (fun a b => le a b = true) (heapDrain le l) :=
  heapDrainAux_sorted le htot htr l.length l (Nat.le_refl _)

/-- Two sorted lists that are permutations of each other are equal, as
long as the (possibly non-antisymmetric) comparison acts antisymmetrically
on the elements involved. -/
theorem sorted_perm_eq {α : Type} (le : α → α → Bool) :
    ∀ (l1 l2 : List α), l1.Perm l2 →
      List.Pairwise (fun a b => le a b = true) l1 →
      List.Pairwise (fun a b => le a b = true) l2 →
      (∀ x ∈ l1, ∀ y ∈ l1, le x y = true → le y x = true → x = y) →
      l1 = l2 := by
  intro l1
  induction l1 with
  | nil =>
    intro l2 hp _ _ _
    exact (hp.nil_eq).symm ▸ rfl
  | cons x t1 ih =>
    intro l2 hp hs1 hs2 hanti
    cases l2 with
    | nil => exact absurd hp.symm (by simp)
    | cons y t2 =>
      have hxy : x = y := by
        have hx2 : x ∈ y :: t2 := hp.subset (List.mem_cons_self x t1)
        have hy1 : y ∈ x :: t1 := hp.symm.subset (List.mem_cons_self y t2)
        rcases List.mem_cons.mp hx2 with h1 | h1
        · exact h1
        rcases List.mem_cons.mp hy1 with h2 | h2
        · exact h2.symm
        have hxley : le x y = true := (List.pairwise_cons.mp hs1).1 y h2
        have hylex : le y x = true := (List.pairwise_cons.mp hs2).1 x h1
        exact hanti x (List.mem_cons_self x t1) y (List.mem_cons_of_mem x h2) hxley hylex
      subst hxy
      have hpt : t1.Perm t2 := hp.cons_inv
      rw [ih t2 hpt (List.pairwise_cons.mp hs1).2 (List.pairwise_cons.mp hs2).2
        (fun a ha b hb => hanti a (List.mem_cons_of_mem x ha) b (List.mem_cons_of_mem x hb))]

/-- Draining is insertion-order independent: two insertion orders of the
same multiset of pairs drain identically, provided no two distinct pairs
compare as equal. -/
theorem heapDrain_eq_of_perm (l1 l2 : List (String × String)) (hp : l1.Perm l2)
    (hanti : ∀ x ∈ l1, ∀ y ∈ l1, pairLe x y = true → pairLe y x = true → x = y) :
    heapDrain pairLe l1 = heapDrain pairLe l2 := by
  have hd1 := heapDrain_perm pairLe l1
  have hd2 := heapDrain_perm pairLe l2
  refine sorted_perm_eq pairLe _ _ (hd1.trans (hp.trans hd2.symm))
    (heapDrain_sorted pairLe pairLe_total pairLe_trans l1)
    (heapDrain_sorted pairLe pairLe_total pairLe_trans l2) ?_
  intro x hx y hy hxy hyx
  exact hanti x (hd1.subset hx) y (hd1.subset hy) hxy hyx

/-! ### C3: strategy breakdown emission order -/

theorem flatten_map_singleton {α β : Type} (f : α → β) (l : List α) :
    (l.map fun x => [f x]).flatten = l.map f := by
  induction l with
  | nil => rfl
  | cons x xs ih => simp [ih]

theorem processA_pairBlock (pr : String × String) :
    processA [OutEvent.setColor defaultColor, OutEvent.write (strip_relative_parts pr.2),
      OutEvent.setColor languageColor, OutEvent.writeLn (" (" ++ pr.1 ++ ")")] "" =
      ([strategyLine pr], "") := by
  simp [processA, string_empty_append, strategyLine, String.append_assoc]

theorem processA_strategyGroup (condensed : Bool) (matchF : String → Bool)
    (b : String × List (String × String)) :
    processA (strategyGroupEvents condensed matchF b) "" =
      ((if matchF b.1 then
          (b.1 ++ " (" ++ toString b.2.length ++ ")") ::
            (if condensed then [] else (heapDrain pairLe b.2).map strategyLine ++ [""])
        else []), "") := by
  unfold strategyGroupEvents
  split
  · cases condensed with
    | true => simp [processA, string_empty_append, String.append_assoc]
    | false =>
      simp only [Bool.false_eq_true, if_false, List.cons_append, List.nil_append]
      simp only [processA]
      rw [processA_append,
        processA_flatMap _ _ (fun pr _ => by rw [processA_pairBlock])]
      simp only [processA_pairBlock]
      simp only [processA, string_empty_append, String.append_assoc]
      simp [List.flatMap, flatten_map_singleton]
  · simp [processA]

/-- C3: in the strategy breakdown (non-condensed), each matching bucket
prints its header and then its `(language, path)` pairs as lines
`"<normalized path> (<language>)"` in the heap's pop order; that order is
ascending in the lexicographic `(language, path)` comparison and is a
permutation of the bucket's contents, for every insertion order. -/
theorem strategy_breakdown_order (groups : List LangEntry) (matchF : String → Bool) :
    renderLines (print_strategy_breakdown groups false matchF) =
      (strategyBuckets groups).flatMap (fun b =>
        if matchF b.1 then
          (b.1 ++ " (" ++ toString b.2.length ++ ")") ::
            ((heapDrain pairLe b.2).map strategyLine ++ [""])
        else []) ∧
    ∀ l : List (String × String),
      List.Pairwise (fun x y => pairLe x y = true) (heapDrain pairLe l) ∧
        (heapDrain pairLe l).Perm l := by
  constructor
  · unfold print_strategy_breakdown
    have hclosed : ∀ b ∈ strategyBuckets groups,
        (processA (strategyGroupEvents false matchF b) "").2 = "" := by
      intro b _
      rw [processA_strategyGroup]
    rw [renderLines_closed _ (by rw [processA_flatMap _ _ hclosed]),
      processA_flatMap _ _ hclosed]
    simp only [processA_strategyGroup, Bool.false_eq_true, if_false]
  · intro l
    exact ⟨heapDrain_sorted pairLe pairLe_total pairLe_trans l, heapDrain_perm pairLe l⟩

/-! ### C2: determinism -/

/-- Metadata lookup for the C2 counterexample: two programming languages. -/
def cexInfo : String → Option LanguageType := fun s =>
  if s = "Ada" then some LanguageType.programming
  else if s = "C" then some LanguageType.programming
  else none

def cexB1 : List LangEntry :=
  [("Ada", [(Detection.extension, "a.adb")]), ("C", [(Detection.extension, "c.c")])]

def cexB2 : List LangEntry :=
  [("C", [(Detection.extension, "c.c")]), ("Ada", [(Detection.extension, "a.adb")])]

/-- C2 counterexample: the pipeline is *not* a function of the input set.
`cexB1` and `cexB2` hold the same set of detections (they are
permutations — the breakdown arrives in arbitrary `HashMap` iteration
order), yet the rendered output differs: both languages count one file, so
the stable count sort keeps them in encounter order and the percentage
summary lines swap. -/
theorem pipeline_not_function_of_set :
    cexB1.Perm cexB2 ∧
      renderLines (mainFn cexInfo (fun _ => none) cexB1 ⟨false, false, false, none⟩).1 ≠
        renderLines (mainFn cexInfo (fun _ => none) cexB2 ⟨false, false, false, none⟩).1 := by
  constructor
  · exact List.Perm.swap _ _ []
  · decide

/-- C2 amended: the only displayed order the code canonicalizes is the
one inside a strategy bucket: any two insertion orders of the same
bucket multiset drain to the identical emitted sequence (provided no two
distinct pairs compare equal, as is the case for canonical path
strings).  Nothing more is deterministic: equal-count language groups
and per-language file listings follow the arbitrary encounter order of
the input, and even on the identical frozen input the strategy stage may
swap equal-size buckets, because the freshly seeded `HashMap` of
`print_strategy_breakdown` (line 129) iterates in per-run randomized
order and the size-only stable sort (line 141) preserves that order for
ties. -/
theorem bucket_emission_order_independent (l1 l2 : List (String × String))
    (hp : l1.Perm l2)
    (hanti : ∀ x ∈ l1, ∀ y ∈ l1, pairLe x y = true → pairLe y x = true → x = y) :
    heapDrain pairLe l1 = heapDrain pairLe l2 :=
  heapDrain_eq_of_perm l1 l2 hp hanti

/-- C2 amended witness: a two-element bucket drains identically from both
insertion orders. -/
theorem bucket_emission_order_independent_w :
    heapDrain pairLe [("Rust", "b.rs"), ("Ada", "a.adb")] =
      heapDrain pairLe [("Ada", "a.adb"), ("Rust", "b.rs")] :=
  bucket_emission_order_independent _ _ (List.Perm.swap _ _ []) (by decide)

/-! ### C4: strategy buckets partition the file set -/

theorem pushBucket_pairs (m : List (String × List (String × String))) (k : String)
    (pr : String × String) :
    ((pushBucket m k pr).flatMap (fun b => b.2)).Perm (pr :: m.flatMap (fun b => b.2)) := by
  induction m with
  | nil => simp [pushBucket]
  | cons b rest ih =>
    simp only [pushBucket]
    split
    · simp
    · simp only [List.flatMap_cons]
      exact (List.Perm.append_left b.2 ih).trans List.perm_middle

theorem foldl_push_pairs (lang : String) (files : List (Detection × String)) :
    ∀ (m : List (String × List (String × String))),
      ((files.foldl (fun m2 d => pushBucket m2 d.1.variant (lang, d.2)) m).flatMap
          (fun b => b.2)).Perm
        ((files.map (fun d => (lang, d.2))) ++ m.flatMap (fun b => b.2)) := by
  induction files with
  | nil => intro m; simp
  | cons d ds ih =>
    intro m
    simp only [List.foldl_cons, List.map_cons, List.cons_append]
    exact (ih _).trans ((List.Perm.append_left _ (pushBucket_pairs m _ _)).trans
      List.perm_middle)

theorem buildBuckets_pairs (groups : List LangEntry) :
    ((buildBuckets groups).flatMap (fun b => b.2)).Perm
      (groups.flatMap (fun g => g.2.map (fun d => (g.1, d.2)))) := by
  suffices h : ∀ (m : List (String × List (String × String))),
      ((groups.foldl
          (fun m g => g.2.foldl (fun m2 d => pushBucket m2 d.1.variant (g.1, d.2)) m)
          m).flatMap (fun b => b.2)).Perm
        (groups.flatMap (fun g => g.2.map (fun d => (g.1, d.2))) ++
          m.flatMap (fun b => b.2)) by
    simpa [buildBuckets] using h []
  induction groups with
  | nil => intro m; simp
  | cons g gs ih =>
    intro m
    simp only [List.foldl_cons, List.flatMap_cons]
    refine (ih _).trans ?_
    refine (List.Perm.append_left _ (foldl_push_pairs g.1 g.2 m)).trans ?_
    rw [← List.append_assoc]
    exact List.Perm.append_right _ List.perm_append_comm

theorem strategyBuckets_pairs (groups : List LangEntry) :
    ((strategyBuckets groups).flatMap (fun b => b.2)).Perm
      (groups.flatMap (fun g => g.2.map (fun d => (g.1, d.2)))) :=
  ((List.perm_insertionSort lenGE (buildBuckets groups)).flatMap_right _).trans
    (buildBuckets_pairs groups)

/-- The path multiset of all buckets, as a flattened list of lists. -/
theorem bucket_paths_flatten (m : List (String × List (String × String))) :
    (m.map (fun b => b.2.map Prod.snd)).flatten = (m.flatMap (fun b => b.2)).map Prod.snd := by
  induction m with
  | nil => rfl
  | cons b rest ih => simp [ih]

theorem countP_mem_one {m : List (String × List (String × String))} {p : String}
    (hnd : ((m.map (fun b => b.2.map Prod.snd)).flatten).Nodup)
    (hmem : p ∈ (m.map (fun b => b.2.map Prod.snd)).flatten) :
    m.countP (fun b => decide (p ∈ b.2.map Prod.snd)) = 1 := by
  induction m with
  | nil => simp at hmem
  | cons b rest ih =>
    simp only [List.map_cons, List.flatten_cons] at hnd hmem
    obtain ⟨hnd1, hnd2, hdisj⟩ := List.nodup_append.mp hnd
    rw [List.countP_cons]
    rcases List.mem_append.mp hmem with hin | hin
    · have hzero : rest.countP (fun b => decide (p ∈ b.2.map Prod.snd)) = 0 := by
        rw [List.countP_eq_zero]
        intro b' hb' hc
        have hpin : p ∈ (rest.map (fun b => b.2.map Prod.snd)).flatten :=
          List.mem_flatten.mpr ⟨b'.2.map Prod.snd, List.mem_map_of_mem _ hb', by simpa using hc⟩
        exact hdisj hin hpin
      simp [hzero, hin]
    · have hnotb : p ∉ b.2.map Prod.snd := fun hc => hdisj hc hin
      simp [hnotb, ih hnd2 hin]

/-- C4: the strategy buckets partition the filtered file set.  The
multiset of `(language, path)` pairs across all buckets equals the
multiset across all language sequences (so the union of buckets is the
union of the sequences); and when paths are globally distinct (the
Breakdown invariant: every file appears in exactly one language's
sequence, once), the buckets are pairwise disjoint on paths and every
path lies in exactly one bucket. -/
theorem strategy_buckets_partition (groups : List LangEntry) :
    ((strategyBuckets groups).flatMap (fun b => b.2)).Perm
        (groups.flatMap (fun g => g.2.map (fun d => (g.1, d.2)))) ∧
      ((groups.flatMap (fun g => g.2.map (fun d => d.2))).Nodup →
        List.Pairwise (fun b1 b2 => ∀ p, p ∈ b1.2.map Prod.snd → p ∉ b2.2.map Prod.snd)
            (strategyBuckets groups) ∧
          ∀ p ∈ groups.flatMap (fun g => g.2.map (fun d => d.2)),
            (strategyBuckets groups).countP (fun b => decide (p ∈ b.2.map Prod.snd)) = 1) := by
  have hpairs := strategyBuckets_pairs groups
  have hpaths : (((strategyBuckets groups).flatMap (fun b => b.2)).map Prod.snd).Perm
      (groups.flatMap (fun g => g.2.map (fun d => d.2))) := by
    refine (hpairs.map Prod.snd).trans ?_
    rw [List.map_flatMap]
    have hfun : (fun (a : LangEntry) => (List.map (fun d => (a.1, d.2)) a.2).map Prod.snd) =
        fun (a : LangEntry) => a.2.map (fun d => d.2) := by
      funext a
      rw [List.map_map]
      rfl
    rw [hfun]
  refine ⟨hpairs, fun hnd => ?_⟩
  have hndb : ((strategyBuckets groups).map (fun b => b.2.map Prod.snd)).flatten.Nodup := by
    rw [bucket_paths_flatten]
    exact hpaths.nodup_iff.mpr hnd
  constructor
  · have hpw := (List.nodup_flatten.mp hndb).2
    have := (List.pairwise_map).mp hpw
    exact this.imp (fun {b1 b2} hd p hp1 hp2 => hd hp1 hp2)
  · intro p hp
    have hpmem : p ∈ ((strategyBuckets groups).map (fun b => b.2.map Prod.snd)).flatten := by
      rw [bucket_paths_flatten]
      exact hpaths.mem_iff.mpr hp
    exact countP_mem_one hndb hpmem

/-! ### C6: the language grouper -/

/-- C6: the grouper keeps exactly the languages whose metadata type is
markup or programming (no metadata means dropped), and returns them
sorted descending by the length of their detection sequence. -/
theorem language_grouper_spec (info : String → Option LanguageType) (b : List LangEntry) :
    (languageFilterSort info b).Perm (b.filter (keepLang info)) ∧
      List.Sorted lenGE (languageFilterSort info b) ∧
      ∀ g : LangEntry, keepLang info g = true ↔
        (info g.1 = some LanguageType.markup ∨ info g.1 = some LanguageType.programming) := by
  refine ⟨List.perm_insertionSort lenGE _, List.sorted_insertionSort lenGE _, ?_⟩
  intro g
  unfold keepLang
  cases h : info g.1 with
  | none => simp
  | some t => cases t <;> simp

/-! ### C1: invalid filter handling -/

/-- The regex compiler used for the counterexample: `(` is rejected by
the external regex engine (unclosed group), modelled by a compiler that
fails on the supplied pattern. -/
def cexCompile : String → Option (String → Bool) := fun _ => none

/-- C1 counterexample: with an invalid `--filter` the process does exit
non-zero, but not at startup before scanning and reporting: the
percentage summary has already been printed (partial output exists) when
the `expect` panic fires while `CLIOptions` is being built. -/
theorem invalid_filter_counterexample :
    (mainFn cexInfo cexCompile cexB1 ⟨true, false, false, some "("⟩).2 =
        ExitKind.panicked ∧
      renderLines (mainFn cexInfo cexCompile cexB1 ⟨true, false, false, some "("⟩).1 =
        ["50.00% Ada", "50.00% C"] ∧
      renderLines (mainFn cexInfo cexCompile cexB1 ⟨true, false, false, some "("⟩).1 ≠ [] := by
  refine ⟨by decide, by decide, by decide⟩

/-- C1 amended: an invalid `--filter` pattern is detected when the options
are built — which happens after the scan and after the percentage summary
is printed — and the process then exits non-zero (panic) having emitted
exactly the percentage summary as partial output, with neither breakdown
printed. -/
theorem invalid_filter_panics_after_summary (info : String → Option LanguageType)
    (compile : String → Option (String → Bool)) (b : List LangEntry) (args : CLIArgs)
    (f : String) (hf : args.filter = some f) (hc : compile f = none) :
    mainFn info compile b args =
      (print_language_split (languageFilterSort info b), ExitKind.panicked) := by
  unfold mainFn
  rw [hf]
  dsimp only
  rw [hc]

/-- C1 amended witness. -/
theorem invalid_filter_panics_after_summary_w :
    mainFn cexInfo cexCompile cexB1 ⟨true, false, false, some "("⟩ =
      (print_language_split (languageFilterSort cexInfo cexB1), ExitKind.panicked) :=
  invalid_filter_panics_after_summary cexInfo cexCompile cexB1 _ "(" rfl rfl

/-- C5 amended witness: a path with no leading current-directory marker
is unchanged. -/
theorem pathNormalizer_amended_w :
    strHasCurDirStart "x/y.rs" = false ∧ strip_relative_parts "x/y.rs" = "x/y.rs" :=
  ⟨by decide, pathNormalizer_amended.1 "x/y.rs" (by decide)⟩

/-- C4 witness: on the example breakdown the paths are distinct, and the
buckets are pairwise disjoint with each path in exactly one bucket. -/
theorem strategy_buckets_partition_w :
    List.Pairwise (fun b1 b2 => ∀ p, p ∈ b1.2.map Prod.snd → p ∉ b2.2.map Prod.snd)
        (strategyBuckets exBreakdown) ∧
      ∀ p ∈ exBreakdown.flatMap (fun g => g.2.map (fun d => d.2)),
        (strategyBuckets exBreakdown).countP (fun b => decide (p ∈ b.2.map Prod.snd)) = 1 :=
  (strategy_buckets_partition exBreakdown).2 (by decide)

/-! ### C8: printed percentages sum to 100 within tolerance -/

/-- The printed percentage as an exact rational (hundredths over 100). -/
def printedPercent (len total : Nat) : ℚ :=
  (percentRounded len total : ℚ) / 100

/-- Rounding to two decimals moves the value by at most half a hundredth. -/
theorem percentRounded_close (len total : Nat) (h : 0 < total) :
    |printedPercent len total - (len : ℚ) * 100 / (total : ℚ)| ≤ 1 / 200 := by
  have htQ : (0 : ℚ) < (total : ℚ) := by exact_mod_cast h
  unfold printedPercent percentRounded
  have hkey := Nat.div_add_mod (20000 * len + total) (2 * total)
  have hlt : (20000 * len + total) % (2 * total) < 2 * total :=
    Nat.mod_lt _ (by omega)
  set q := (20000 * len + total) / (2 * total) with hq
  set r := (20000 * len + total) % (2 * total) with hrr
  have h1 : (2 * (total : ℚ) * q + r : ℚ) = 20000 * len + total := by exact_mod_cast hkey
  have h2 : (r : ℚ) < 2 * total := by exact_mod_cast hlt
  have h3 : (0 : ℚ) ≤ r := by positivity
  rw [abs_sub_le_iff]
  constructor
  · rw [div_sub_div _ _ (by norm_num : (100 : ℚ) ≠ 0) (ne_of_gt htQ),
      div_le_iff₀ (by positivity)]
    nlinarith [h1, h2, h3, htQ]
  · rw [div_sub_div _ _ (ne_of_gt htQ) (by norm_num : (100 : ℚ) ≠ 0),
      div_le_iff₀ (by positivity)]
    nlinarith [h1, h2, h3, htQ]

theorem list_abs_sum_le (l : List ℚ) : |l.sum| ≤ (l.map (fun x => |x|)).sum := by
  induction l with
  | nil => simp
  | cons x xs ih =>
    simp only [List.sum_cons, List.map_cons]
    exact (abs_add _ _).trans (by linarith)

theorem map_sub_sum (f g : LangEntry → ℚ) (l : List LangEntry) :
    (l.map f).sum - (l.map g).sum = (l.map (fun x => f x - g x)).sum := by
  induction l with
  | nil => simp
  | cons x xs ih =>
    simp only [List.map_cons, List.sum_cons]
    linarith

theorem sum_le_card_mul (l : List ℚ) (c : ℚ) (h : ∀ x ∈ l, x ≤ c) :
    l.sum ≤ (l.length : ℚ) * c := by
  induction l with
  | nil => simp
  | cons x xs ih =>
    simp only [List.sum_cons, List.length_cons]
    have hxs := ih (fun y hy => h y (List.mem_cons_of_mem _ hy))
    have hx := h x (List.mem_cons_self x xs)
    push_cast
    linarith

theorem sum_map_cast (l : List LangEntry) :
    (l.map (fun g => (g.2.length : ℚ))).sum =
      (((l.map (fun g => g.2.length) : List Nat)).sum : ℚ) := by
  induction l with
  | nil => simp
  | cons g gs ih =>
    simp only [List.map_cons, List.sum_cons, ih]
    push_cast
    ring

theorem exact_sum_div (T : ℚ) (l : List LangEntry) :
    (l.map (fun g => (g.2.length : ℚ) * 100 / T)).sum =
      (l.map (fun g => (g.2.length : ℚ))).sum * 100 / T := by
  induction l with
  | nil => simp
  | cons g gs ih =>
    simp only [List.map_cons, List.sum_cons, ih]
    ring

/-- C8: for a non-empty grouping (of non-empty groups, as the engine
produces), the printed two-decimal percentages sum to 100 within
`0.01 × (number of languages)` — the proof gives the stronger half-ulp
bound `0.005 × n`. -/
theorem percent_sum_bound (groups : List LangEntry) (hne : groups ≠ [])
    (hall : ∀ g ∈ groups, g.2 ≠ []) :
    |(groups.map (fun g => printedPercent g.2.length (totalCount groups))).sum - 100| ≤
      (groups.length : ℚ) * (1 / 100) := by
  have hT : 0 < totalCount groups := by
    cases groups with
    | nil => exact absurd rfl hne
    | cons g gs =>
      rw [totalCount_eq_sum]
      simp only [List.map_cons, List.sum_cons]
      have hg : g.2.length ≠ 0 := fun hz =>
        hall g (List.mem_cons_self g gs) (List.eq_nil_of_length_eq_zero hz)
      omega
  have hTQ : (0 : ℚ) < (totalCount groups : ℚ) := by exact_mod_cast hT
  have hexact :
      (groups.map (fun g => (g.2.length : ℚ) * 100 / (totalCount groups : ℚ))).sum = 100 := by
    have hsum : (groups.map (fun g => (g.2.length : ℚ))).sum = (totalCount groups : ℚ) := by
      rw [totalCount_eq_sum]
      exact sum_map_cast groups
    rw [exact_sum_div, hsum]
    field_simp
  have hdiff := map_sub_sum (fun g => printedPercent g.2.length (totalCount groups))
    (fun g => (g.2.length : ℚ) * 100 / (totalCount groups : ℚ)) groups
  rw [hexact] at hdiff
  rw [hdiff]
  refine le_trans (list_abs_sum_le _) ?_
  have hlen : ((groups.map (fun g => printedPercent g.2.length (totalCount groups) -
      (g.2.length : ℚ) * 100 / (totalCount groups : ℚ))).map (fun x => |x|)).length =
      groups.length := by
    rw [List.length_map, List.length_map]
  refine le_trans (sum_le_card_mul _ (1 / 100) ?_) (by rw [hlen])
  intro x hx
  obtain ⟨y, hy, rfl⟩ := List.mem_map.mp hx
  obtain ⟨g, hg, rfl⟩ := List.mem_map.mp hy
  exact le_trans (percentRounded_close g.2.length (totalCount groups) hT) (by norm_num)

/-- C8 witness: the example breakdown (2 Rust files, 1 Markdown file). -/
theorem percent_sum_bound_w :
    exBreakdown ≠ [] ∧ (∀ g ∈ exBreakdown, g.2 ≠ []) ∧
      |(exBreakdown.map (fun g => printedPercent g.2.length (totalCount exBreakdown))).sum -
          100| ≤ (exBreakdown.length : ℚ) * (1 / 100) :=
  ⟨by decide, by decide, percent_sum_bound exBreakdown (by decide) (by decide)⟩
